import Mathlib

/-!
Shallow embedding of the Obsidian Gemini vector-chat plugin core:
the vector database (vector-db source file), the note indexer and the
Gemini embedding service (gemini-service.ts).  JavaScript numbers are
modelled as real numbers; JS Map iteration order (insertion order) is
modelled by keeping the store as a list of entries.
-/

set_option maxHeartbeats 1000000

namespace VectorPlugin

/-! ### Data model (interfaces VectorEntry, SearchResult, TFile) -/

/-- One stored entry, mirroring interface VectorEntry. -/
structure VectorEntry where
  id : String
  embedding : List ℝ
  content : String
  title : String
  modified : Int
  tags : Option (List String)

/-- A search result, mirroring interface SearchResult. -/
structure SearchResult where
  note : VectorEntry
  similarity : ℝ

/-- A live markdown file as seen through the Obsidian vault API:
path, basename and stat.mtime. -/
structure TFile where
  path : String
  basename : String
  mtime : Int

/-- The persistent store: the in-memory Map (as a list in insertion
order), the durable copy written by saveDatabase, and a counter of how
many times saveDatabase ran (to observe flushes). -/
structure Store where
  db : List VectorEntry
  disk : List VectorEntry
  flushes : Nat

/-! ### Map operations (JS Map set / get / delete semantics) -/

/-- JS Map.set: replace in place if the key exists (keeping insertion
order), otherwise append at the end. -/
def mapSet (db : List VectorEntry) (e : VectorEntry) : List VectorEntry :=
  match db with
  | [] => [e]
  | x :: xs => if x.id = e.id then e :: xs else x :: mapSet xs e

/-- JS Map.get: first (unique) entry with the given id. -/
def mapGet (db : List VectorEntry) (id : String) : Option VectorEntry :=
  db.find? (fun x => x.id == id)

/-! ### VectorDatabase.cosineSimilarity -/

/-- cosineSimilarity from the vector-db source: 0 on length mismatch,
0 when either norm is 0, otherwise dot / (sqrt normA * sqrt normB). -/
noncomputable def cosineSimilarity (a b : List ℝ) : ℝ :=
  if a.length ≠ b.length then 0
  else
    let dotProduct := ((a.zip b).map (fun p => p.1 * p.2)).sum
    let normA := (a.map (fun x => x * x)).sum
    let normB := (b.map (fun x => x * x)).sum
    if normA = 0 ∨ normB = 0 then 0
    else dotProduct / (Real.sqrt normA * Real.sqrt normB)

/-! ### VectorDatabase.search -/

/-- The comparison relation of the sort comparator
(a, b) => b.similarity - a.similarity : a may come before b
exactly when b.similarity ≤ a.similarity. -/
def simGE (a b : SearchResult) : Prop := b.similarity ≤ a.similarity

noncomputable instance : DecidableRel simGE :=
  fun a b => Real.decidableLE b.similarity a.similarity

/-- The (entry, score) pairs collected by the for-loop in search, in
Map iteration order, skipping entries with empty embeddings. -/
noncomputable def searchScored (db : List VectorEntry) (q : List ℝ) : List SearchResult :=
  (db.filter (fun e => !e.embedding.isEmpty)).map
    (fun e => { note := e, similarity := cosineSimilarity q e.embedding })

/-- Array.prototype.slice(0, k): a negative end index counts from the
end of the array. -/
def jsSlice {α : Type} (l : List α) (k : Int) : List α :=
  if k < 0 then l.take ((l.length : Int) + k).toNat
  else l.take k.toNat

/-- VectorDatabase.search.  Array.prototype.sort is stable, so the JS
sort with this comparator is insertion sort by the simGE relation. -/
noncomputable def search (db : List VectorEntry) (queryEmbedding : List ℝ)
    (topK : Int) : List SearchResult :=
  if queryEmbedding.isEmpty then []
  else jsSlice (List.insertionSort simGE (searchScored db queryEmbedding)) topK

/-! ### VectorDatabase store operations -/

/-- saveDatabase: writes the in-memory map to disk. -/
def saveDatabase (s : Store) : Store :=
  { db := s.db, disk := s.db, flushes := s.flushes + 1 }

/-- VectorDatabase.addVector: set then save. -/
def addVector (s : Store) (e : VectorEntry) : Store :=
  saveDatabase { s with db := mapSet s.db e }

/-- VectorDatabase.addVectors: set each entry in order, then save once. -/
def addVectors (s : Store) (entries : List VectorEntry) : Store :=
  saveDatabase { s with db := entries.foldl mapSet s.db }

/-- VectorDatabase.getVector (the store is modelled after loading). -/
def getVector (s : Store) (id : String) : Option VectorEntry :=
  mapGet s.db id

/-- VectorDatabase.getModifiedNotes: keep every live file that is
absent from the store or strictly newer than its stored watermark. -/
def getModifiedNotes (files : List TFile) (s : Store) : List TFile :=
  files.filter (fun f =>
    match mapGet s.db f.path with
    | none => true
    | some entry => decide (entry.modified < f.mtime))

/-- VectorDatabase.removeDeletedNotes: delete every stored id whose
path is no longer among the live files; save only if something was
deleted; return the number of deleted ids. -/
def removeDeletedNotes (files : List TFile) (s : Store) : Nat × Store :=
  let currentPaths := files.map (fun f => f.path)
  let toDelete := (s.db.map (fun e => e.id)).filter (fun id => !currentPaths.contains id)
  let db2 := s.db.filter (fun e => currentPaths.contains e.id)
  if toDelete.length > 0 then
    (toDelete.length, saveDatabase { s with db := db2 })
  else
    (toDelete.length, { s with db := db2 })

/-! ### JS string utilities -/

/-- JS whitespace for trim and the regex class \s (ASCII part; note
titles and paths in practice are ASCII-spaced). -/
def isJsWS (c : Char) : Bool :=
  c = ' ' || c = '\t' || c = '\n' || c = '\r' || c = Char.ofNat 11 || c = Char.ofNat 12

/-- String.prototype.trim on a character list. -/
def jsTrim (l : List Char) : List Char :=
  ((l.dropWhile isJsWS).reverse.dropWhile isJsWS).reverse

/-- String.prototype.trim. -/
def jsTrimStr (s : String) : String := (jsTrim s.data).asString

/-- First index at which pat occurs as a contiguous block of l. -/
def findSub (l pat : List Char) : Option Nat :=
  match l with
  | [] => if pat = [] then some 0 else none
  | c :: rest =>
    if pat.isPrefixOf (c :: rest) then some 0
    else (findSub rest pat).map (fun n => n + 1)

/-- The backtick character. -/
def btick : Char := Char.ofNat 96

/-! ### Regex global replace, modelled as a left-to-right scan.
A matcher returns the replacement text and the number of characters the
match consumed; on failure the scanner advances one character, exactly
like a regex engine moving its start position.  Fuel is the remaining
input length; every step consumes at least one character, so starting
with the full length never exhausts it. -/

def scanReplF (tryM : List Char → Option (List Char × Nat)) :
    Nat → List Char → List Char
  | _, [] => []
  | 0, l => l
  | fuel + 1, c :: rest =>
    match tryM (c :: rest) with
    | some (rep, k) => rep ++ scanReplF tryM fuel ((c :: rest).drop (max 1 k))
    | none => c :: scanReplF tryM fuel rest

def scanRepl (tryM : List Char → Option (List Char × Nat)) (l : List Char) : List Char :=
  scanReplF tryM l.length l

/-- Matcher for fenced code blocks (three backticks, lazy body, three
backticks), replaced by a placeholder. -/
def mCode (l : List Char) : Option (List Char × Nat) :=
  if [btick, btick, btick].isPrefixOf l then
    (findSub (l.drop 3) [btick, btick, btick]).map
      (fun j => ("[code block]".data, 3 + j + 3))
  else none

/-- Matcher for inline code spans (backtick, one or more non-backtick
characters, backtick). -/
def mInline (l : List Char) : Option (List Char × Nat) :=
  match l with
  | [] => none
  | c :: rest =>
    if c = btick then
      let seg := rest.takeWhile (fun d => d != btick)
      if seg.isEmpty then none
      else
        match rest.drop seg.length with
        | d :: _ => if d = btick then some ("[inline code]".data, 1 + seg.length + 1) else none
        | [] => none
    else none

/-- Matcher for markdown links: bracketed non-empty text then
parenthesised non-empty target, replaced by the text. -/
def mLink (l : List Char) : Option (List Char × Nat) :=
  match l with
  | '[' :: rest =>
    let seg1 := rest.takeWhile (fun d => d != ']')
    if seg1.isEmpty then none
    else
      match rest.drop seg1.length with
      | ']' :: '(' :: r2 =>
        let seg2 := r2.takeWhile (fun d => d != ')')
        if seg2.isEmpty then none
        else
          match r2.drop seg2.length with
          | ')' :: _ => some (seg1, 1 + seg1.length + 2 + seg2.length + 1)
          | _ => none
      | _ => none
  | _ => none

/-- Matcher for images: bang, bracketed possibly-empty alt text,
parenthesised non-empty target, replaced by an image placeholder
keeping the alt text. -/
def mImage (l : List Char) : Option (List Char × Nat) :=
  match l with
  | '!' :: '[' :: rest =>
    let seg1 := rest.takeWhile (fun d => d != ']')
    match rest.drop seg1.length with
    | ']' :: '(' :: r2 =>
      let seg2 := r2.takeWhile (fun d => d != ')')
      if seg2.isEmpty then none
      else
        match r2.drop seg2.length with
        | ')' :: _ => some ("[image: ".data ++ seg1 ++ [']'], 2 + seg1.length + 2 + seg2.length + 1)
        | _ => none
    | _ => none
  | _ => none

/-- Matcher for doubled emphasis markers (bold with two stars or two
underscores), replaced by the inner text. -/
def mDouble (d : Char) (l : List Char) : Option (List Char × Nat) :=
  if [d, d].isPrefixOf l then
    let seg := (l.drop 2).takeWhile (fun c => c != d)
    if seg.isEmpty then none
    else
      match (l.drop 2).drop seg.length with
      | c1 :: c2 :: _ =>
        if c1 = d ∧ c2 = d then some (seg, 2 + seg.length + 2) else none
      | _ => none
  else none

/-- Matcher for single emphasis markers (italic with one star or one
underscore), replaced by the inner text. -/
def mSingle (d : Char) (l : List Char) : Option (List Char × Nat) :=
  match l with
  | [] => none
  | c :: rest =>
    if c = d then
      let seg := rest.takeWhile (fun e => e != d)
      if seg.isEmpty then none
      else
        match rest.drop seg.length with
        | e :: _ => if e = d then some (seg, 1 + seg.length + 1) else none
        | [] => none
    else none

/-- Strip a leading front-matter block: first match (no global flag) of
three dashes at a line start, lazily up to the next three dashes, plus
an optional trailing newline.  The scan carries whether the current
position is a line start (the multiline anchor). -/
def stripFM : Bool → List Char → List Char
  | _, [] => []
  | ls, c :: rest =>
    if ls ∧ ['-', '-', '-'].isPrefixOf (c :: rest) then
      match findSub ((c :: rest).drop 3) ['-', '-', '-'] with
      | some j =>
        match (c :: rest).drop (3 + j + 3) with
        | '\n' :: a2 => a2
        | after => after
      | none => c :: stripFM (c = '\n') rest
    else c :: stripFM (c = '\n') rest

/-- Strip heading markers: at every line start, one or more hashes
followed by one or more whitespace characters are removed (global and
multiline). -/
def stripHeadersF : Nat → Bool → List Char → List Char
  | _, _, [] => []
  | 0, _, l => l
  | fuel + 1, ls, c :: rest =>
    if ls ∧ c = '#' then
      let hashes := rest.takeWhile (fun d => d = '#')
      let r2 := rest.drop hashes.length
      let ws := r2.takeWhile isJsWS
      if ws.isEmpty then c :: stripHeadersF fuel false rest
      else stripHeadersF fuel (ws.getLast? == some '\n') (r2.drop ws.length)
    else c :: stripHeadersF fuel (c == '\n') rest

/-- Collapse every run of three or more newlines to exactly two.  The
first argument counts pending newlines already read. -/
def collapseAux : Nat → List Char → List Char
  | k, [] => List.replicate (min k 2) '\n'
  | k, c :: rest =>
    if c = '\n' then collapseAux (k + 1) rest
    else List.replicate (min k 2) '\n' ++ c :: collapseAux 0 rest

/-- NoteIndexer.preprocessContent: strip front matter, replace code,
strip markdown, prepend the title and path header, collapse newline
runs and trim. -/
def preprocessContent (content : String) (file : TFile) : String :=
  let c1 := stripFM true content.data
  let c2 := scanRepl mCode c1
  let c3 := scanRepl mInline c2
  let c4 := stripHeadersF c3.length true c3
  let c5 := scanRepl mLink c4
  let c6 := scanRepl mImage c5
  let c7 := scanRepl (mDouble '*') c6
  let c8 := scanRepl (mSingle '*') c7
  let c9 := scanRepl (mDouble '_') c8
  let c10 := scanRepl (mSingle '_') c9
  let withHeader :=
    ("Title: " ++ file.basename ++ "\nPath: " ++ file.path ++ "\n\n").data ++ c10
  (jsTrim (collapseAux 0 withHeader)).asString

/-! ### NoteIndexer.extractTags -/

/-- The regex class of word characters plus hyphen. -/
def isWordChar (c : Char) : Bool := c.isAlphanum || c = '_' || c = '-'

/-- Global scan for hash followed by one or more word characters; each
match yields the token without the hash and the scan resumes after it. -/
def scanHashtagsF : Nat → List Char → List (List Char)
  | _, [] => []
  | 0, _ => []
  | fuel + 1, c :: rest =>
    if c = '#' then
      let run := rest.takeWhile isWordChar
      if run.isEmpty then scanHashtagsF fuel rest
      else run :: scanHashtagsF fuel (rest.drop run.length)
    else scanHashtagsF fuel rest

def scanHashtags (l : List Char) : List (List Char) := scanHashtagsF l.length l

/-- The front-matter capture of extractTags: the text must begin with
three dashes and a newline; the capture runs lazily up to the next
newline-then-three-dashes. -/
def fmBlock (l : List Char) : Option (List Char) :=
  if ['-', '-', '-', '\n'].isPrefixOf l then
    (findSub (l.drop 4) ['\n', '-', '-', '-']).map (fun j => (l.drop 4).take j)
  else none

/-- Attempt the tags-list pattern at the current position: the literal
word tags and colon, optional whitespace, an opening square bracket,
then a lazy same-line capture up to the closing square bracket. -/
def tagsMatchAt (l : List Char) : Option (List Char) :=
  if "tags:".data.isPrefixOf l then
    match (l.drop 5).dropWhile isJsWS with
    | '[' :: r2 =>
      let seg := r2.takeWhile (fun c => c != ']' && c != '\n')
      match r2.drop seg.length with
      | ']' :: _ => some seg
      | _ => none
    | _ => none
  else none

/-- Search the front matter left to right for the first position where
the tags-list pattern matches. -/
def findTagsList : List Char → Option (List Char)
  | [] => none
  | c :: rest =>
    match tagsMatchAt (c :: rest) with
    | some seg => some seg
    | none => findTagsList rest

/-- JS String.prototype.split on a comma separator: always yields at
least one piece; the separator is consumed. -/
def splitOnCommaF : Nat → List Char → List (List Char)
  | _, [] => [[]]
  | 0, l => [l]
  | fuel + 1, c :: rest =>
    if c = ',' then [] :: splitOnCommaF fuel rest
    else
      match splitOnCommaF fuel rest with
      | [] => [[c]]
      | g :: gs => (c :: g) :: gs

def splitOnComma (l : List Char) : List (List Char) := splitOnCommaF l.length l

/-- The tags declared in a front-matter tags list: split on commas,
trim each piece and delete quote characters. -/
def fmDeclaredTags (s : String) : List String :=
  match fmBlock s.data with
  | none => []
  | some fm =>
    match findTagsList fm with
    | none => []
    | some seg =>
      (splitOnComma seg).map (fun t =>
        ((jsTrim t).filter (fun c => c != Char.ofNat 39 && c != '"')).asString)

/-- Deduplication via a JS Set: keeps the first occurrence of each
element, in order. -/
def jsDedupF : Nat → List String → List String
  | _, [] => []
  | 0, l => l
  | fuel + 1, x :: xs => x :: jsDedupF fuel (xs.filter (fun y => y != x))

def jsDedup (l : List String) : List String := jsDedupF l.length l

/-- NoteIndexer.extractTags: hashtag tokens, then front-matter declared
tags, deduplicated. -/
def extractTags (content : String) : List String :=
  jsDedup ((scanHashtags content.data).map (fun t => t.asString) ++ fmDeclaredTags content)

/-! ### GeminiService embeddings -/

/-- The environment of one indexing run: the vault files, the document
reads (none models a read failure) and the embedding provider (none
models a provider failure for that text). -/
structure Env where
  files : List TFile
  readFn : TFile → Option String
  provider : String → Option (List ℝ)

/-- The text cleanup in generateEmbedding: trim, then cap at 10000
characters. -/
def jsCleanText (text : String) : String := ((jsTrimStr text).data.take 10000).asString

/-- GeminiService.generateEmbedding: empty cleaned text yields an empty
embedding without calling the provider; a provider failure is rethrown. -/
def generateEmbedding (provider : String → Option (List ℝ)) (text : String) :
    Except Unit (List ℝ) :=
  let cleanText := jsCleanText text
  if cleanText = "" then .ok []
  else
    match provider cleanText with
    | some v => .ok v
    | none => .error ()

/-- Promise.all over one batch: the first rejection rejects the whole
batch. -/
def allEmbeds (provider : String → Option (List ℝ)) :
    List String → Except Unit (List (List ℝ))
  | [] => .ok []
  | t :: ts =>
    match generateEmbedding provider t, allEmbeds provider ts with
    | .ok v, .ok vs => .ok (v :: vs)
    | .ok _, .error e => .error e
    | .error e, _ => .error e

/-- Partition into consecutive batches of five (the batchSize constant
used by both generateEmbeddings and indexAllNotes). -/
def toBatches5F {α : Type} : Nat → List α → List (List α)
  | _, [] => []
  | 0, l => [l]
  | fuel + 1, x :: xs => ((x :: xs).take 5) :: toBatches5F fuel ((x :: xs).drop 5)

def toBatches5 {α : Type} (l : List α) : List (List α) := toBatches5F l.length l

/-- One batch inside GeminiService.generateEmbeddings: the whole-batch
failure is caught and replaced by empty embeddings for every item. -/
def embedChunk (provider : String → Option (List ℝ)) (chunk : List String) : List (List ℝ) :=
  match allEmbeds provider chunk with
  | .ok vs => vs
  | .error _ => chunk.map (fun _ => ([] : List ℝ))

/-- GeminiService.generateEmbeddings: batches of five, results
concatenated in order. -/
def generateEmbeddings (provider : String → Option (List ℝ)) (texts : List String) :
    List (List ℝ) :=
  ((toBatches5 texts).map (embedChunk provider)).flatten

/-! ### NoteIndexer -/

/-- The indexer state: the single-flight flag and the store it owns. -/
structure IndexerState where
  isIndexing : Bool
  store : Store

/-- The read-and-preprocess loop of processBatch: per-file read errors
are skipped, and files whose processed content trims to empty are
discarded. -/
def readBatch (env : Env) (files : List TFile) : List (TFile × String) :=
  files.filterMap (fun f =>
    match env.readFn f with
    | none => none
    | some raw =>
      let p := preprocessContent raw f
      if jsTrimStr p = "" then none else some (f, p))

/-- The contents list sent to the embedding provider for one batch. -/
def batchContents (env : Env) (files : List TFile) : List String :=
  (readBatch env files).map (fun fd => fd.2)

/-- NoteIndexer.processBatch: read and preprocess the batch, embed it,
and keep exactly the items that received a non-empty embedding. -/
noncomputable def processBatch (env : Env) (files : List TFile) : List VectorEntry :=
  let fileData := readBatch env files
  let contents := batchContents env files
  if contents.isEmpty then []
  else
    let embeddings := generateEmbeddings env.provider contents
    (fileData.zip embeddings).filterMap (fun pe =>
      if pe.2.isEmpty then none
      else some {
        id := pe.1.1.path
        embedding := pe.2
        content := (pe.1.2.data.take 3000).asString
        title := pe.1.1.basename
        modified := pe.1.1.mtime
        tags := some (extractTags pe.1.2) })

/-- NoteIndexer.indexAllNotes: the single-flight guard, then purge of
deleted notes, then the batched pipeline accumulating entries across
batches and one bulk write at the end; returns the number of entries
indexed and the final state (the flag is always released). -/
noncomputable def indexAllNotes (env : Env) (st : IndexerState) : Nat × IndexerState :=
  if st.isIndexing then (0, st)
  else
    let dcStore := removeDeletedNotes env.files st.store
    if env.files.isEmpty then (0, { isIndexing := false, store := dcStore.2 })
    else
      let entries := ((toBatches5 env.files).map (processBatch env)).flatten
      let store2 := if entries.isEmpty then dcStore.2 else addVectors dcStore.2 entries
      (entries.length, { isIndexing := false, store := store2 })

/-! ### Helper lemmas about sums of squares and zipped products -/

lemma sumSq_nonneg (a : List ℝ) : 0 ≤ (a.map (fun x => x * x)).sum := by
  apply List.sum_nonneg
  intro x hx
  obtain ⟨y, _, rfl⟩ := List.mem_map.mp hx
  exact mul_self_nonneg y

lemma sumSq_pos {a : List ℝ} (h : ∃ x ∈ a, x ≠ 0) :
    0 < (a.map (fun x => x * x)).sum := by
  induction a with
  | nil => simp at h
  | cons y ys ih =>
    simp only [List.map_cons, List.sum_cons]
    obtain ⟨x, hx, hx0⟩ := h
    rcases List.mem_cons.mp hx with rfl | hmem
    · have hxx : 0 < x * x := mul_self_pos.mpr hx0
      have hrest := sumSq_nonneg ys
      linarith
    · have hpos := ih ⟨x, hmem, hx0⟩
      have hyy : 0 ≤ y * y := mul_self_nonneg y
      linarith

lemma sumSq_eq_zero {a : List ℝ} (h : ∀ x ∈ a, x = 0) :
    (a.map (fun x => x * x)).sum = 0 := by
  apply List.sum_eq_zero
  intro x hx
  obtain ⟨y, hy, rfl⟩ := List.mem_map.mp hx
  rw [h y hy, mul_zero]

lemma zip_self_mul (a : List ℝ) :
    ((a.zip a).map (fun p => p.1 * p.2)).sum = (a.map (fun x => x * x)).sum := by
  induction a with
  | nil => rfl
  | cons y ys ih => simp [ih]

lemma zip_mul_comm (a b : List ℝ) :
    ((a.zip b).map (fun p => p.1 * p.2)).sum = ((b.zip a).map (fun p => p.1 * p.2)).sum := by
  induction a generalizing b with
  | nil => cases b <;> rfl
  | cons y ys ih =>
    cases b with
    | nil => rfl
    | cons z zs => simp [ih zs, mul_comm]

/-- C2: cosine similarity is symmetric; the self-similarity of every
non-zero vector is 1; and the similarity is 0 whenever the lengths
differ or either vector is all zero. -/
theorem cosineSimilarity_symm_self_zero :
    (∀ a b : List ℝ, cosineSimilarity a b = cosineSimilarity b a) ∧
    (∀ a : List ℝ, (∃ x ∈ a, x ≠ 0) → cosineSimilarity a a = 1) ∧
    (∀ a b : List ℝ,
      (a.length ≠ b.length ∨ (∀ x ∈ a, x = 0) ∨ (∀ x ∈ b, x = 0)) →
      cosineSimilarity a b = 0) := by
  refine ⟨?_, ?_, ?_⟩
  · intro a b
    by_cases hlen : a.length = b.length
    · simp only [cosineSimilarity, hlen, ne_eq, not_true_eq_false, if_false]
      rw [zip_mul_comm]
      by_cases hz : (List.map (fun x => x * x) a).sum = 0 ∨ (List.map (fun x => x * x) b).sum = 0
      · rw [if_pos hz, if_pos hz.symm]
      · rw [if_neg hz, if_neg (fun h => hz h.symm), mul_comm (Real.sqrt _)]
    · have hlen2 : b.length ≠ a.length := fun h => hlen h.symm
      simp [cosineSimilarity, hlen, hlen2]
  · intro a ha
    have hpos := sumSq_pos ha
    simp only [cosineSimilarity, ne_eq, not_true_eq_false, if_false]
    rw [zip_self_mul]
    rw [if_neg (by push_neg; exact ⟨ne_of_gt hpos, ne_of_gt hpos⟩)]
    rw [Real.mul_self_sqrt (le_of_lt hpos)]
    exact div_self (ne_of_gt hpos)
  · intro a b h
    rcases h with hlen | hza | hzb
    · simp [cosineSimilarity, hlen]
    · by_cases hlen : a.length = b.length
      · simp only [cosineSimilarity, hlen, ne_eq, not_true_eq_false, if_false]
        rw [if_pos (Or.inl (sumSq_eq_zero hza))]
      · simp [cosineSimilarity, hlen]
    · by_cases hlen : a.length = b.length
      · simp only [cosineSimilarity, hlen, ne_eq, not_true_eq_false, if_false]
        rw [if_pos (Or.inr (sumSq_eq_zero hzb))]
      · simp [cosineSimilarity, hlen]

/-- Witness for C2 at concrete vectors. -/
theorem cosineSimilarity_symm_self_zero_witness :
    cosineSimilarity [1] [1] = 1 ∧ cosineSimilarity [1] [1, 2] = 0 :=
  ⟨cosineSimilarity_symm_self_zero.2.1 [1] ⟨1, by simp, one_ne_zero⟩,
   cosineSimilarity_symm_self_zero.2.2 [1] [1, 2] (Or.inl (by simp))⟩

/-! ### C3: upsert then get round-trips -/

lemma find?_mapSet (db : List VectorEntry) (e : VectorEntry) :
    (mapSet db e).find? (fun x => x.id == e.id) = some e := by
  induction db with
  | nil => simp [mapSet, List.find?]
  | cons x xs ih =>
    by_cases h : x.id = e.id
    · simp [mapSet, h, List.find?]
    · simp only [mapSet, if_neg h]
      rw [List.find?_cons_of_neg _ (by simp [h]), ih]

/-- C3: after addVector, getVector on the same id returns the entry,
and the durable copy agrees with memory. -/
theorem getVector_addVector (s : Store) (e : VectorEntry) :
    getVector (addVector s e) e.id = some e ∧
    (addVector s e).disk = (addVector s e).db := by
  constructor
  · simpa [getVector, addVector, saveDatabase, mapGet] using find?_mapSet s.db e
  · rfl

/-- Witness for C3 at a concrete store and entry. -/
theorem getVector_addVector_witness :
    getVector (addVector ⟨[], [], 0⟩ ⟨"a.md", [1], "c", "a", 3, none⟩) "a.md" =
      some ⟨"a.md", [1], "c", "a", 3, none⟩ :=
  (getVector_addVector ⟨[], [], 0⟩ ⟨"a.md", [1], "c", "a", 3, none⟩).1

/-! ### C4: the single-flight guard of indexAllNotes -/

/-- C4: a call while an indexing run is in progress returns 0 and the
completely unchanged state. -/
theorem indexAllNotes_single_flight (env : Env) (st : IndexerState)
    (h : st.isIndexing = true) : indexAllNotes env st = (0, st) := by
  simp [indexAllNotes, h]

/-- Witness for C4 at a concrete busy state. -/
theorem indexAllNotes_single_flight_witness :
    indexAllNotes ⟨[], fun _ => none, fun _ => none⟩ ⟨true, ⟨[], [], 0⟩⟩ =
      (0, ⟨true, ⟨[], [], 0⟩⟩) :=
  indexAllNotes_single_flight _ _ rfl

/-! ### C6: removeDeletedNotes purges exactly the dead ids -/

/-- C6: purge removes exactly the entries whose id is not a live path,
keeps all others in order and untouched, returns how many were
removed, and performs no flush (indeed no change at all) when nothing
was removed. -/
theorem removeDeletedNotes_exact (files : List TFile) (s : Store) :
    List.Sublist (removeDeletedNotes files s).2.db s.db ∧
    (∀ e, e ∈ (removeDeletedNotes files s).2.db ↔
      e ∈ s.db ∧ e.id ∈ files.map (fun f => f.path)) ∧
    (removeDeletedNotes files s).1 =
      (s.db.filter (fun e => !(files.map (fun f => f.path)).contains e.id)).length ∧
    ((removeDeletedNotes files s).1 = 0 → (removeDeletedNotes files s) = (0, s)) := by
  have hlen : ((s.db.map (fun e => e.id)).filter
      (fun id => !(files.map (fun f => f.path)).contains id)).length =
      (s.db.filter (fun e => !(files.map (fun f => f.path)).contains e.id)).length := by
    rw [List.filter_map, List.length_map]; rfl
  have key : (removeDeletedNotes files s).1 =
      (s.db.filter (fun e => !(files.map (fun f => f.path)).contains e.id)).length ∧
      (removeDeletedNotes files s).2.db =
      s.db.filter (fun e => (files.map (fun f => f.path)).contains e.id) := by
    simp only [removeDeletedNotes]
    by_cases h : ((s.db.map (fun e => e.id)).filter
        (fun id => !(files.map (fun f => f.path)).contains id)).length > 0
    · rw [if_pos h]; exact ⟨hlen, rfl⟩
    · rw [if_neg h]; exact ⟨hlen, rfl⟩
  refine ⟨?_, ?_, key.1, ?_⟩
  · rw [key.2]; exact List.filter_sublist _
  · intro e
    rw [key.2, List.mem_filter]
    constructor
    · rintro ⟨he, hc⟩
      exact ⟨he, by simpa using hc⟩
    · rintro ⟨he, hc⟩
      exact ⟨he, by simpa using hc⟩
  · intro h0
    have hnil : s.db.filter (fun e => !(files.map (fun f => f.path)).contains e.id) = [] :=
      List.length_eq_zero.mp (key.1 ▸ h0)
    have hall : ∀ e ∈ s.db, ((files.map (fun f => f.path)).contains e.id) = true := by
      intro e he
      by_contra hc
      have hcf : (files.map (fun f => f.path)).contains e.id = false := by simpa using hc
      have hmem : e ∈ s.db.filter (fun e => !(files.map (fun f => f.path)).contains e.id) :=
        List.mem_filter.mpr ⟨he, by rw [hcf]; rfl⟩
      rw [hnil] at hmem
      exact absurd hmem (List.not_mem_nil e)
    have hkeep : s.db.filter (fun e => (files.map (fun f => f.path)).contains e.id) = s.db :=
      List.filter_eq_self.mpr hall
    have hcnt0 : ((s.db.map (fun e => e.id)).filter
        (fun id => !(files.map (fun f => f.path)).contains id)).length = 0 := by
      rw [hlen, hnil]; rfl
    simp only [removeDeletedNotes]
    rw [if_neg (by omega)]
    rw [Prod.mk.injEq]
    exact ⟨hcnt0, by rw [hkeep]⟩

/-- Witness for C6 at a concrete store and live set. -/
theorem removeDeletedNotes_exact_witness :
    (removeDeletedNotes [⟨"a.md", "a", 1⟩]
      ⟨[⟨"b.md", [], "", "", 0, none⟩], [], 0⟩).1 =
      (([(⟨"b.md", [], "", "", 0, none⟩ : VectorEntry)]).filter
        (fun e => !(([⟨"a.md", "a", 1⟩] : List TFile).map (fun f => f.path)).contains e.id)).length :=
  (removeDeletedNotes_exact [⟨"a.md", "a", 1⟩] ⟨[⟨"b.md", [], "", "", 0, none⟩], [], 0⟩).2.2.1

/-! ### C8: getModifiedNotes is an exhaustive staleness scan -/

/-- C8: the modified-notes scan preserves the live iteration order and
returns exactly the live files that are absent from the store or whose
modification time strictly exceeds the stored watermark. -/
theorem getModifiedNotes_exact (files : List TFile) (s : Store) :
    List.Sublist (getModifiedNotes files s) files ∧
    (∀ f, f ∈ getModifiedNotes files s ↔
      f ∈ files ∧ ∀ e, mapGet s.db f.path = some e → e.modified < f.mtime) := by
  constructor
  · exact List.filter_sublist _
  · intro f
    rw [getModifiedNotes, List.mem_filter]
    cases h : mapGet s.db f.path with
    | none => simp [h]
    | some e => simp [h]

/-- Witness for C8 at a concrete store and live set. -/
theorem getModifiedNotes_exact_witness :
    (⟨"c.md", "c", 5⟩ : TFile) ∈
      getModifiedNotes [⟨"a.md", "a", 1⟩, ⟨"c.md", "c", 5⟩]
        ⟨[⟨"a.md", [], "", "", 1, none⟩], [], 0⟩ ↔
      (⟨"c.md", "c", 5⟩ : TFile) ∈ ([⟨"a.md", "a", 1⟩, ⟨"c.md", "c", 5⟩] : List TFile) ∧
      ∀ e, mapGet [⟨"a.md", [], "", "", 1, none⟩] "c.md" = some e → e.modified < 5 :=
  (getModifiedNotes_exact [⟨"a.md", "a", 1⟩, ⟨"c.md", "c", 5⟩]
    ⟨[⟨"a.md", [], "", "", 1, none⟩], [], 0⟩).2 ⟨"c.md", "c", 5⟩

/-! ### C7: degenerate search arguments -/

/-- C7 (amended): search with bound 0 returns the empty sequence for
every store and query, and search with an empty query vector returns
the empty sequence for every store and bound (the early return never
reaches the store scan). -/
theorem search_degenerate :
    (∀ db q, search db q 0 = []) ∧
    (∀ db k, search db ([] : List ℝ) k = []) := by
  constructor
  · intro db q
    by_cases h : q.isEmpty
    · simp [search, h]
    · simp [search, h, jsSlice]
  · intro db k
    simp [search]

/-- Witness for C7 at a concrete store. -/
theorem search_degenerate_witness :
    search [⟨"a.md", [1], "", "", 0, none⟩] [1] 0 = [] ∧
    search [⟨"a.md", [1], "", "", 0, none⟩] ([] : List ℝ) 7 = [] :=
  ⟨search_degenerate.1 _ [1], search_degenerate.2 _ 7⟩

/-- Counterexample to C7 as stated: a search bound of -1 follows the
JS slice semantics (negative end counts from the end), so with two
stored entries it returns one result, not the empty sequence. -/
theorem search_negative_k_not_empty :
    search [⟨"a.md", [1], "", "", 0, none⟩, ⟨"b.md", [1], "", "", 0, none⟩]
      [1] (-1) ≠ [] := by
  intro hcontra
  have h2 : (searchScored
      [⟨"a.md", [1], "", "", 0, none⟩, ⟨"b.md", [1], "", "", 0, none⟩] [1]).length = 2 := by
    simp [searchScored]
  have hsort : (List.insertionSort simGE (searchScored
      [⟨"a.md", [1], "", "", 0, none⟩, ⟨"b.md", [1], "", "", 0, none⟩] [1])).length = 2 := by
    rw [List.length_insertionSort, h2]
  have hl : (search [⟨"a.md", [1], "", "", 0, none⟩, ⟨"b.md", [1], "", "", 0, none⟩]
      [1] (-1)).length = 1 := by
    rw [search, if_neg (by simp), jsSlice, if_pos (by norm_num),
        List.length_take, hsort]
    norm_num
  rw [hcontra] at hl
  simp at hl

/-! ### C1: the search contract -/

instance : IsTotal SearchResult simGE := ⟨fun a b => le_total b.similarity a.similarity⟩

instance : IsTrans SearchResult simGE := ⟨fun _ _ _ hab hbc => le_trans hbc hab⟩

lemma filter_orderedInsert (x : SearchResult) (l : List SearchResult) (s : ℝ) :
    (List.orderedInsert simGE x l).filter (fun r => decide (r.similarity = s)) =
      if x.similarity = s
      then x :: l.filter (fun r => decide (r.similarity = s))
      else l.filter (fun r => decide (r.similarity = s)) := by
  induction l with
  | nil => by_cases hx : x.similarity = s <;> simp [List.orderedInsert, hx]
  | cons y ys ih =>
    by_cases hxy : simGE x y
    · by_cases hx : x.similarity = s <;>
        simp [List.orderedInsert, hxy, List.filter_cons, hx]
    · have key : ¬ (x.similarity = s ∧ y.similarity = s) := by
        rintro ⟨hx, hy⟩
        exact hxy (by rw [simGE, hx, hy])
      by_cases hx : x.similarity = s
      · have hy : ¬ y.similarity = s := fun hy => key ⟨hx, hy⟩
        simp [List.orderedInsert, hxy, List.filter_cons, hx, hy, ih]
      · by_cases hy : y.similarity = s <;>
          simp [List.orderedInsert, hxy, List.filter_cons, hx, hy, ih]

/-- Insertion sort by the comparator relation is stable on every tie
class: filtering a score out of the sorted list gives exactly the
same sequence as filtering it out of the unsorted input. -/
lemma filter_insertionSort_eq (l : List SearchResult) (s : ℝ) :
    (List.insertionSort simGE l).filter (fun r => decide (r.similarity = s)) =
      l.filter (fun r => decide (r.similarity = s)) := by
  induction l with
  | nil => rfl
  | cons x xs ih =>
    rw [List.insertionSort, filter_orderedInsert, List.filter_cons]
    by_cases hx : x.similarity = s <;> simp [hx, ih]

/-- C1 (amended with the bound being non-negative): search returns at
most k results, each a stored entry with a non-empty embedding, the
results are sorted descending by similarity, and every tie class
appears as a sublist of the scored list built in store iteration
order. -/
theorem search_spec (db : List VectorEntry) (q : List ℝ) (k : Int) (hk : 0 ≤ k) :
    ((search db q k).length : Int) ≤ k ∧
    (∀ r ∈ search db q k, r.note ∈ db ∧ r.note.embedding ≠ []) ∧
    List.Pairwise simGE (search db q k) ∧
    (∀ s : ℝ, List.Sublist
      ((search db q k).filter (fun r => decide (r.similarity = s)))
      (searchScored db q)) := by
  by_cases hq : q.isEmpty
  · refine ⟨?_, ?_, ?_, ?_⟩ <;> simp [search, hq]
    exact hk
  · have hsearch : search db q k =
        (List.insertionSort simGE (searchScored db q)).take k.toNat := by
      rw [search, if_neg hq, jsSlice, if_neg (not_lt.mpr hk)]
    refine ⟨?_, ?_, ?_, ?_⟩
    · have hle : (search db q k).length ≤ k.toNat := by
        rw [hsearch]
        exact List.length_take_le _ _
      omega
    · intro r hr
      rw [hsearch] at hr
      have hr2 : r ∈ List.insertionSort simGE (searchScored db q) :=
        List.take_subset _ _ hr
      rw [List.mem_insertionSort] at hr2
      obtain ⟨e, he, rfl⟩ := List.mem_map.mp hr2
      obtain ⟨hedb, hee⟩ := List.mem_filter.mp he
      refine ⟨hedb, ?_⟩
      simpa using hee
    · rw [hsearch]
      exact List.Pairwise.sublist (List.take_sublist _ _)
        (List.sorted_insertionSort simGE (searchScored db q))
    · intro s
      rw [hsearch]
      have h1 : List.Sublist
          (((List.insertionSort simGE (searchScored db q)).take k.toNat).filter
            (fun r => decide (r.similarity = s)))
          ((List.insertionSort simGE (searchScored db q)).filter
            (fun r => decide (r.similarity = s))) :=
        List.Sublist.filter _ (List.take_sublist _ _)
      rw [filter_insertionSort_eq] at h1
      exact h1.trans (List.filter_sublist _)

/-- Witness for C1 at a concrete store, query and bound. -/
theorem search_spec_witness :
    ((search [⟨"a.md", [1], "", "", 0, none⟩] [1] 3).length : Int) ≤ 3 ∧
    (∀ r ∈ search [⟨"a.md", [1], "", "", 0, none⟩] [1] 3,
      r.note ∈ [(⟨"a.md", [1], "", "", 0, none⟩ : VectorEntry)] ∧ r.note.embedding ≠ []) ∧
    List.Pairwise simGE (search [⟨"a.md", [1], "", "", 0, none⟩] [1] 3) ∧
    (∀ s : ℝ, List.Sublist
      ((search [⟨"a.md", [1], "", "", 0, none⟩] [1] 3).filter
        (fun r => decide (r.similarity = s)))
      (searchScored [⟨"a.md", [1], "", "", 0, none⟩] [1])) :=
  search_spec [⟨"a.md", [1], "", "", 0, none⟩] [1] 3 (by norm_num)

/-- Counterexample to C1 as stated: for the negative bound -1 the
returned list is not of length at most -1; with two stored entries the
JS slice semantics return one result. -/
theorem search_negative_k_length :
    ¬ (((search [⟨"c.md", [1], "", "", 0, none⟩, ⟨"d.md", [1], "", "", 0, none⟩]
      [1] (-1)).length : Int) ≤ -1) := by
  have h2 : (searchScored
      [⟨"c.md", [1], "", "", 0, none⟩, ⟨"d.md", [1], "", "", 0, none⟩] [1]).length = 2 := by
    simp [searchScored]
  have hl : (search [⟨"c.md", [1], "", "", 0, none⟩, ⟨"d.md", [1], "", "", 0, none⟩]
      [1] (-1)).length = 1 := by
    rw [search, if_neg (by simp), jsSlice, if_pos (by norm_num),
        List.length_take, List.length_insertionSort, h2]
    norm_num
  rw [hl]
  norm_num

/-! ### C5: a failed embedding batch is isolated -/

lemma toBatches5_single {α : Type} (l : List α) (h1 : l ≠ []) (h2 : l.length ≤ 5) :
    toBatches5 l = [l] := by
  obtain ⟨x, xs, rfl⟩ := List.exists_cons_of_ne_nil h1
  simp only [toBatches5, List.length_cons, toBatches5F]
  rw [List.take_of_length_le h2, List.drop_eq_nil_of_le h2]
  simp [toBatches5F]

lemma allEmbeds_error (p : String → Option (List ℝ)) (l : List String)
    (h : ∃ c ∈ l, generateEmbedding p c = .error ()) :
    allEmbeds p l = .error () := by
  induction l with
  | nil => simp at h
  | cons t ts ih =>
    obtain ⟨c, hc, hce⟩ := h
    rcases List.mem_cons.mp hc with rfl | hmem
    · rw [allEmbeds, hce]
    · rw [allEmbeds, ih ⟨c, hmem, hce⟩]
      cases hgt : generateEmbedding p t with
      | ok v => rfl
      | error e => rfl

lemma generateEmbeddings_failed (p : String → Option (List ℝ)) (contents : List String)
    (h1 : contents.length ≤ 5)
    (h2 : ∃ c ∈ contents, generateEmbedding p c = .error ()) :
    generateEmbeddings p contents = contents.map (fun _ => ([] : List ℝ)) := by
  have hne : contents ≠ [] := by rintro rfl; simp at h2
  rw [generateEmbeddings, toBatches5_single contents hne h1]
  simp [embedChunk, allEmbeds_error p contents h2]

/-- C5: no entry produced by processBatch has an empty embedding; a
batch of at most five documents with any provider failure contributes
zero entries; and an idle indexAllNotes run over a non-empty vault
counts every batch of the partition, so one failed batch never aborts
the remaining ones. -/
theorem batch_failure_isolated :
    (∀ env files, ∀ e ∈ processBatch env files, e.embedding ≠ []) ∧
    (∀ env files, (batchContents env files).length ≤ 5 →
      (∃ c ∈ batchContents env files, generateEmbedding env.provider c = .error ()) →
      processBatch env files = []) ∧
    (∀ env st, st.isIndexing = false → env.files ≠ [] →
      (indexAllNotes env st).1 =
        (((toBatches5 env.files).map (processBatch env)).map List.length).sum) := by
  refine ⟨?_, ?_, ?_⟩
  · intro env files e he
    simp only [processBatch] at he
    by_cases hc : (batchContents env files).isEmpty
    · rw [if_pos hc] at he; simp at he
    · rw [if_neg hc] at he
      obtain ⟨pe, _, hf⟩ := List.mem_filterMap.mp he
      by_cases hpe : pe.2.isEmpty
      · rw [if_pos hpe] at hf; simp at hf
      · rw [if_neg hpe] at hf
        have heq := Option.some.inj hf
        rw [← heq]
        simpa using hpe
  · intro env files hlen hfail
    simp only [processBatch]
    by_cases hc : (batchContents env files).isEmpty
    · rw [if_pos hc]
    · rw [if_neg hc]
      rw [generateEmbeddings_failed env.provider _ hlen hfail]
      rw [List.filterMap_eq_nil_iff]
      intro pe hpe
      have h2 : pe.2 ∈ (batchContents env files).map (fun _ => ([] : List ℝ)) :=
        (List.of_mem_zip hpe).2
      have hnil : pe.2 = [] := by
        obtain ⟨c, _, hc2⟩ := List.mem_map.mp h2
        exact hc2.symm
      rw [if_pos (by rw [hnil]; rfl)]
  · intro env st hidle hne
    have hne2 : env.files.isEmpty = false := by simp [hne]
    simp only [indexAllNotes, hidle, Bool.false_eq_true, if_false, hne2]
    rw [List.length_flatten, List.map_map]

/-- Witness for C5: a one-file vault whose provider always fails
yields an empty batch result, and the run still counts its (single,
empty) batch. -/
theorem batch_failure_isolated_witness :
    processBatch ⟨[⟨"n.md", "n", 1⟩], fun _ => some "x", fun _ => none⟩ [⟨"n.md", "n", 1⟩] = [] ∧
    (indexAllNotes ⟨[⟨"n.md", "n", 1⟩], fun _ => some "x", fun _ => none⟩
      ⟨false, ⟨[], [], 0⟩⟩).1 =
      (((toBatches5 ([⟨"n.md", "n", 1⟩] : List TFile)).map
        (processBatch ⟨[⟨"n.md", "n", 1⟩], fun _ => some "x", fun _ => none⟩)).map
          List.length).sum :=
  ⟨batch_failure_isolated.2.1 _ _ (by decide)
    ⟨preprocessContent "x" ⟨"n.md", "n", 1⟩, by decide, rfl⟩,
   batch_failure_isolated.2.2 _ _ rfl (by simp)⟩

/-! ### C9: extractTags is duplicate-free and complete -/

lemma jsDedupF_spec : ∀ fuel (l : List String), l.length ≤ fuel →
    (jsDedupF fuel l).Nodup ∧ ∀ x, x ∈ jsDedupF fuel l ↔ x ∈ l := by
  intro fuel
  induction fuel with
  | zero =>
    intro l hl
    have : l = [] := List.length_eq_zero.mp (Nat.le_zero.mp hl)
    subst this
    exact ⟨List.nodup_nil, fun x => Iff.rfl⟩
  | succ f ih =>
    intro l hl
    cases l with
    | nil => exact ⟨List.nodup_nil, fun x => Iff.rfl⟩
    | cons x xs =>
      have hflen : (xs.filter (fun y => y != x)).length ≤ f := by
        have := List.length_filter_le (fun y => y != x) xs
        simp only [List.length_cons] at hl
        omega
      obtain ⟨hnd, hmem⟩ := ih _ hflen
      constructor
      · rw [jsDedupF]
        refine List.nodup_cons.mpr ⟨?_, hnd⟩
        intro hx
        have := (hmem x).mp hx
        simp at this
      · intro y
        rw [jsDedupF, List.mem_cons, hmem y]
        by_cases hyx : y = x
        · subst hyx; simp
        · simp [hyx]

lemma jsDedup_nodup (l : List String) : (jsDedup l).Nodup :=
  (jsDedupF_spec l.length l (le_refl _)).1

lemma mem_jsDedup (l : List String) (x : String) : x ∈ jsDedup l ↔ x ∈ l :=
  (jsDedupF_spec l.length l (le_refl _)).2 x

lemma takeWhile_append_stop (p : Char → Bool) (A B : List Char)
    (hB : ∀ c, B.head? = some c → p c = false) :
    (A ++ B).takeWhile p = A.takeWhile p := by
  induction A with
  | nil =>
    cases B with
    | nil => rfl
    | cons c cs =>
      simp only [List.nil_append, List.takeWhile_cons, hB c rfl]
      rfl
  | cons a A' ih =>
    simp only [List.cons_append, List.takeWhile_cons, ih]

lemma takeWhile_all (p : Char → Bool) (t : List Char) (ht : ∀ c ∈ t, p c = true) :
    t.takeWhile p = t := by
  induction t with
  | nil => rfl
  | cons a t' ih =>
    rw [List.takeWhile_cons_of_pos (ht a (List.mem_cons_self a t'))]
    rw [ih (fun c hc => ht c (List.mem_cons_of_mem a hc))]

lemma takeWhile_length_le (p : Char → Bool) (l : List Char) :
    (l.takeWhile p).length ≤ l.length := by
  induction l with
  | nil => simp
  | cons a l ih =>
    rw [List.takeWhile_cons]
    by_cases h : p a
    · simp only [h, if_true, List.length_cons]
      omega
    · simp [h]

lemma takeWhile_all_append (p : Char → Bool) (t post : List Char)
    (ht : ∀ c ∈ t, p c = true) (hpost : ∀ c, post.head? = some c → p c = false) :
    (t ++ post).takeWhile p = t := by
  rw [takeWhile_append_stop p t post hpost, takeWhile_all p t ht]

lemma scanHashtagsF_complete :
    ∀ fuel (pre t post : List Char), (pre ++ '#' :: (t ++ post)).length ≤ fuel →
      t ≠ [] → (∀ c ∈ t, isWordChar c = true) →
      (∀ c, post.head? = some c → isWordChar c = false) →
      t ∈ scanHashtagsF fuel (pre ++ '#' :: (t ++ post)) := by
  intro fuel
  induction fuel with
  | zero =>
    intro pre t post hlen _ _ _
    simp [List.length_append] at hlen
  | succ f ih =>
    intro pre t post hlen htne htw hpost
    cases pre with
    | nil =>
      simp only [List.nil_append]
      rw [scanHashtagsF, if_pos rfl, takeWhile_all_append _ t post htw hpost]
      rw [if_neg (by simpa using htne)]
      exact List.mem_cons_self _ _
    | cons c pre' =>
      simp only [List.cons_append] at hlen ⊢
      have hlen2 : (pre' ++ '#' :: (t ++ post)).length ≤ f := by
        simp only [List.length_cons] at hlen
        omega
      by_cases hc : c = '#'
      · subst hc
        rw [scanHashtagsF, if_pos rfl]
        rw [takeWhile_append_stop isWordChar pre' ('#' :: (t ++ post))
          (fun d hd => by simp at hd; rw [← hd]; rfl)]
        by_cases hrun : (pre'.takeWhile isWordChar).isEmpty
        · rw [if_pos hrun]
          exact ih pre' t post hlen2 htne htw hpost
        · rw [if_neg hrun]
          have hle : (pre'.takeWhile isWordChar).length ≤ pre'.length :=
            takeWhile_length_le _ _
          rw [List.drop_append_of_le_length hle]
          refine List.mem_cons_of_mem _ ?_
          refine ih (pre'.drop (pre'.takeWhile isWordChar).length) t post ?_ htne htw hpost
          have hdl : (pre'.drop (pre'.takeWhile isWordChar).length).length ≤ pre'.length := by
            rw [List.length_drop]
            omega
          simp only [List.length_append, List.length_cons] at hlen2 ⊢
          omega
      · rw [scanHashtagsF, if_neg hc]
        exact ih pre' t post hlen2 htne htw hpost

lemma scanHashtags_complete (pre t post : List Char)
    (htne : t ≠ []) (htw : ∀ c ∈ t, isWordChar c = true)
    (hpost : ∀ c, post.head? = some c → isWordChar c = false) :
    t ∈ scanHashtags (pre ++ '#' :: (t ++ post)) :=
  scanHashtagsF_complete _ pre t post (le_refl _) htne htw hpost

/-- C9: extractTags returns a duplicate-free list that contains every
maximal hashtag token of the text (hash followed by a non-empty run of
word or hyphen characters) and every tag declared in a front-matter
tags list. -/
theorem extractTags_complete :
    (∀ s : String, (extractTags s).Nodup) ∧
    (∀ s : String, ∀ pre t post : List Char, s.data = pre ++ '#' :: (t ++ post) →
      t ≠ [] → (∀ c ∈ t, isWordChar c = true) →
      (∀ c, post.head? = some c → isWordChar c = false) →
      t.asString ∈ extractTags s) ∧
    (∀ s : String, ∀ tag ∈ fmDeclaredTags s, tag ∈ extractTags s) := by
  refine ⟨?_, ?_, ?_⟩
  · intro s
    exact jsDedup_nodup _
  · intro s pre t post hs htne htw hpost
    rw [extractTags, mem_jsDedup]
    refine List.mem_append_left _ ?_
    refine List.mem_map.mpr ⟨t, ?_, rfl⟩
    rw [hs]
    exact scanHashtags_complete pre t post htne htw hpost
  · intro s tag htag
    rw [extractTags, mem_jsDedup]
    exact List.mem_append_right _ htag

/-- Witness for C9: the hashtag token in a small note and a declared
front-matter tag both appear in the extracted tag list. -/
theorem extractTags_complete_witness :
    "tag".data.asString ∈ extractTags "x #tag y" ∧
    "alpha" ∈ extractTags "---\ntags: [alpha, beta]\n---\nhi" :=
  ⟨extractTags_complete.2.1 "x #tag y" "x ".data "tag".data " y".data
      (by decide) (by decide) (by decide) (by decide),
   extractTags_complete.2.2 "---\ntags: [alpha, beta]\n---\nhi" "alpha" (by decide)⟩

/-! ### C10: the synthesized header of preprocessContent -/

lemma collapseAux_append_nf (A B : List Char) (hA : ∀ c ∈ A, c ≠ '\n') :
    collapseAux 0 (A ++ B) = A ++ collapseAux 0 B := by
  induction A with
  | nil => rfl
  | cons a A' ih =>
    have ha : a ≠ '\n' := hA a (List.mem_cons_self a A')
    rw [List.cons_append, collapseAux, if_neg ha,
      ih (fun c hc => hA c (List.mem_cons_of_mem a hc))]
    simp

lemma collapseAux_header (A1 A2 B : List Char)
    (h1 : ∀ c ∈ A1, c ≠ '\n') (h2 : ∀ c ∈ A2, c ≠ '\n') (hne : A2 ≠ []) :
    collapseAux 0 (A1 ++ '\n' :: (A2 ++ B)) =
      A1 ++ '\n' :: (A2 ++ collapseAux 0 B) := by
  rw [collapseAux_append_nf A1 _ h1]
  congr 1
  obtain ⟨a, A2', rfl⟩ := List.exists_cons_of_ne_nil hne
  have ha : a ≠ '\n' := h2 a (List.mem_cons_self a A2')
  have h2' : ∀ c ∈ A2', c ≠ '\n' := fun c hc => h2 c (List.mem_cons_of_mem a hc)
  rw [collapseAux, if_pos rfl, List.cons_append, collapseAux, if_neg ha,
    collapseAux_append_nf A2' B h2']
  simp

lemma mem_dropWhile_of_neg (p : Char → Bool) (l : List Char) (c : Char)
    (hc : p c = false) (h : c ∈ l) : c ∈ l.dropWhile p := by
  induction l with
  | nil => simp at h
  | cons a l' ih =>
    by_cases hpa : p a
    · rw [List.dropWhile_cons_of_pos hpa]
      rcases List.mem_cons.mp h with rfl | hm
      · rw [hpa] at hc; simp at hc
      · exact ih hm
    · rw [List.dropWhile_cons_of_neg hpa]
      exact h

lemma mem_jsTrim (l : List Char) (c : Char) (hc : isJsWS c = false) (h : c ∈ l) :
    c ∈ jsTrim l := by
  rw [jsTrim, List.mem_reverse]
  apply mem_dropWhile_of_neg _ _ _ hc
  rw [List.mem_reverse]
  exact mem_dropWhile_of_neg _ _ _ hc h

lemma mem_collapseAux (c : Char) (hc : c ≠ '\n') :
    ∀ (k : Nat) (l : List Char), c ∈ l → c ∈ collapseAux k l := by
  intro k l
  induction l generalizing k with
  | nil => intro h; simp at h
  | cons a l' ih =>
    intro h
    by_cases ha : a = '\n'
    · subst ha
      rw [collapseAux, if_pos rfl]
      rcases List.mem_cons.mp h with rfl | hm
      · exact absurd rfl hc
      · exact ih (k + 1) hm
    · rw [collapseAux, if_neg ha]
      rcases List.mem_cons.mp h with rfl | hm
      · exact List.mem_append_right _ (List.mem_cons_self _ _)
      · exact List.mem_append_right _ (List.mem_cons_of_mem _ (ih 0 hm))

lemma jsTrim_append_keep (A B : List Char)
    (hhead : ∀ c, A.head? = some c → isJsWS c = false)
    (hlast : ∀ c, A.getLast? = some c → isJsWS c = false)
    (hAne : A ≠ []) :
    (jsTrim (A ++ B)).take A.length = A := by
  obtain ⟨a, A', rfl⟩ := List.exists_cons_of_ne_nil hAne
  have ha : isJsWS a = false := hhead a rfl
  rw [jsTrim, List.cons_append, List.dropWhile_cons_of_neg (by simp [ha])]
  rw [show (a :: (A' ++ B)) = (a :: A') ++ B from rfl]
  rw [List.reverse_append, List.dropWhile_append]
  by_cases hB : ((B.reverse).dropWhile isJsWS).isEmpty
  · rw [if_pos hB]
    have hrevne : (a :: A').reverse ≠ [] := by simp
    obtain ⟨d, D, hD⟩ := List.exists_cons_of_ne_nil hrevne
    have hd : (a :: A').getLast? = some d := by
      rw [← List.head?_reverse, hD]; rfl
    rw [hD, List.dropWhile_cons_of_neg (by simp [hlast d hd]), ← hD,
      List.reverse_reverse, List.take_length]
  · rw [if_neg hB]
    rw [List.reverse_append, List.reverse_reverse]
    exact List.take_left _ _

/-- The last computation of preprocessContent: the pipeline output is
appended to the synthesized header, newline runs are collapsed and the
result trimmed. -/
lemma preprocess_shape (raw : String) (f : TFile) :
    ∃ body : List Char, preprocessContent raw f =
      (jsTrim (collapseAux 0
        (("Title: " ++ f.basename ++ "\nPath: " ++ f.path ++ "\n\n").data ++ body))).asString :=
  ⟨_, rfl⟩

/-- C10 (amended): preprocessContent always returns a non-empty string
whose trim is also non-empty, so the discard branch of processBatch is
never taken; and when basename and path are newline-free and the path
is non-empty and does not end in whitespace, the result begins with
the synthesized Title and Path header. -/
theorem preprocessContent_header_spec :
    (∀ raw f, preprocessContent raw f ≠ "") ∧
    (∀ raw f, jsTrimStr (preprocessContent raw f) ≠ "") ∧
    (∀ raw f, (∀ c ∈ f.basename.data, c ≠ '\n') → (∀ c ∈ f.path.data, c ≠ '\n') →
      f.path.data ≠ [] →
      (∀ c, f.path.data.getLast? = some c → isJsWS c = false) →
      (preprocessContent raw f).data.take
          ("Title: " ++ f.basename ++ "\nPath: " ++ f.path).data.length =
        ("Title: " ++ f.basename ++ "\nPath: " ++ f.path).data) := by
  have hmemT : ∀ raw f, 'T' ∈ (preprocessContent raw f).data := by
    intro raw f
    obtain ⟨body, hshape⟩ := preprocess_shape raw f
    rw [hshape]
    show 'T' ∈ jsTrim (collapseAux 0
      (("Title: " ++ f.basename ++ "\nPath: " ++ f.path ++ "\n\n").data ++ body))
    apply mem_jsTrim _ _ (by decide)
    apply mem_collapseAux 'T' (by decide)
    apply List.mem_append_left
    rw [String.data_append, String.data_append, String.data_append, String.data_append]
    exact List.mem_append_left _ (List.mem_append_left _ (List.mem_append_left _
      (List.mem_append_left _ (by decide))))
  refine ⟨?_, ?_, ?_⟩
  · intro raw f h
    have hT := hmemT raw f
    rw [h] at hT
    simp at hT
  · intro raw f h
    have hT : 'T' ∈ jsTrim (preprocessContent raw f).data :=
      mem_jsTrim _ _ (by decide) (hmemT raw f)
    have hdata : jsTrim (preprocessContent raw f).data = [] := by
      have := congrArg String.data h
      simpa [jsTrimStr] using this
    rw [hdata] at hT
    simp at hT
  · intro raw f hb hp hpne hplast
    obtain ⟨body, hshape⟩ := preprocess_shape raw f
    have hTnl : ∀ c ∈ ("Title: ".data : List Char), c ≠ '\n' := by decide
    have hPnl : ∀ c ∈ ("Path: ".data : List Char), c ≠ '\n' := by decide
    have hA1 : ∀ c ∈ ("Title: ".data ++ f.basename.data), c ≠ '\n' := by
      intro c hc
      rcases List.mem_append.mp hc with h | h
      · exact hTnl c h
      · exact hb c h
    have hA2 : ∀ c ∈ ("Path: ".data ++ f.path.data), c ≠ '\n' := by
      intro c hc
      rcases List.mem_append.mp hc with h | h
      · exact hPnl c h
      · exact hp c h
    have hA2ne : ("Path: ".data ++ f.path.data) ≠ [] := by simp
    have hdecomp : ("Title: " ++ f.basename ++ "\nPath: " ++ f.path ++ "\n\n").data ++ body =
        ("Title: ".data ++ f.basename.data) ++ '\n' ::
          (("Path: ".data ++ f.path.data) ++ ('\n' :: '\n' :: body)) := by
      simp only [String.data_append, List.append_assoc, List.cons_append, List.nil_append]
    have hA : ("Title: " ++ f.basename ++ "\nPath: " ++ f.path).data =
        ("Title: ".data ++ f.basename.data) ++ '\n' :: ("Path: ".data ++ f.path.data) := by
      simp only [String.data_append, List.append_assoc, List.cons_append, List.nil_append]
    rw [hshape]
    show (jsTrim (collapseAux 0
        (("Title: " ++ f.basename ++ "\nPath: " ++ f.path ++ "\n\n").data ++ body))).take
        ("Title: " ++ f.basename ++ "\nPath: " ++ f.path).data.length =
      ("Title: " ++ f.basename ++ "\nPath: " ++ f.path).data
    rw [hdecomp, collapseAux_header _ _ _ hA1 hA2 hA2ne, hA]
    rw [show ("Title: ".data ++ f.basename.data) ++ '\n' ::
          (("Path: ".data ++ f.path.data) ++ collapseAux 0 ('\n' :: '\n' :: body)) =
        (("Title: ".data ++ f.basename.data) ++ '\n' :: ("Path: ".data ++ f.path.data)) ++
          collapseAux 0 ('\n' :: '\n' :: body) from by simp]
    apply jsTrim_append_keep
    · intro c hc
      have hh : ((("Title: ".data ++ f.basename.data) ++
          '\n' :: ("Path: ".data ++ f.path.data)).head? = some 'T') := rfl
      have := Option.some.inj (hh.symm.trans hc)
      rw [← this]
      rfl
    · intro c hc
      have hgroup : ("Title: ".data ++ f.basename.data) ++
          '\n' :: ("Path: ".data ++ f.path.data) =
          (("Title: ".data ++ f.basename.data) ++ '\n' :: "Path: ".data) ++ f.path.data := by
        simp
      have hsome : ∃ d, f.path.data.getLast? = some d := by
        cases h : f.path.data.getLast? with
        | none => exact absurd (List.getLast?_eq_none_iff.mp h) hpne
        | some d => exact ⟨d, rfl⟩
      obtain ⟨d, hd⟩ := hsome
      rw [hgroup, List.getLast?_append, hd] at hc
      simp at hc
      exact hplast c (hd.trans (congrArg some hc))
    · simp

/-- Witness for C10 at a concrete file with a clean basename and path. -/
theorem preprocessContent_header_spec_witness :
    preprocessContent "hi" ⟨"n.md", "n", 0⟩ ≠ "" ∧
    jsTrimStr (preprocessContent "hi" ⟨"n.md", "n", 0⟩) ≠ "" ∧
    (preprocessContent "hi" ⟨"n.md", "n", 0⟩).data.take
        ("Title: " ++ "n" ++ "\nPath: " ++ "n.md").data.length =
      ("Title: " ++ "n" ++ "\nPath: " ++ "n.md").data :=
  ⟨preprocessContent_header_spec.1 "hi" ⟨"n.md", "n", 0⟩,
   preprocessContent_header_spec.2.1 "hi" ⟨"n.md", "n", 0⟩,
   preprocessContent_header_spec.2.2 "hi" ⟨"n.md", "n", 0⟩
     (by decide) (by decide) (by decide) (by decide)⟩

/-- Counterexample to C10 as stated: a path ending in a space together
with empty content makes the final trim eat into the header, so the
result does not begin with the claimed Title and Path header. -/
theorem preprocess_header_trailing_space :
    ¬ ((preprocessContent "" ⟨"p ", "b", 0⟩).data.take
        ("Title: " ++ "b" ++ "\nPath: " ++ "p ").data.length =
      ("Title: " ++ "b" ++ "\nPath: " ++ "p ").data) := by
  decide

end VectorPlugin
